import Mathlib

/-!
Verification of the revset-engine specification of the jj repository.

The development shallowly embeds the code relevant to each claim:

* `DatePattern` and its `matches` method are translated from
  `src/lib/src/time_util.rs`.
* `format_duration` is translated from `src/cli/src/time_util.rs`
  (the jiff timestamp conversion is modelled: a timestamp converts to a
  zoned instant carrying the same milliseconds, failing outside jiff's
  representable range; the `timeago` formatter is an abstract function).
* `parse_human_byte_size` is translated from `src/lib/src/settings.rs`,
  working on the character list of the input string.
* The revset symbol resolver and evaluator are not shipped under `src/`
  (only their tests are), so they are modelled from the specification,
  with every behaviour that the tests in `src/lib/tests/test_revset.rs`
  pin down reproduced exactly (git-ref lookup order, `latest` ordering,
  `present` error recovery, `coalesce` resolution, `at_operation`
  snapshot evaluation, `fork_point` on criss-cross history).

Commits are identified by their index position (a natural number);
parents always have smaller positions, and evaluation emits positions in
strictly decreasing order, mirroring the reverse-topological order
contract of the engine.
-/

/-! ## Time utilities (`src/lib/src/time_util.rs`, `src/cli/src/time_util.rs`) -/

/-- A timestamp: milliseconds since epoch plus a timezone offset in minutes
(`MillisSinceEpoch` is a signed 64-bit integer in the source; overflow never
occurs in the operations modelled here, so it is embedded as `Int`). -/
structure Timestamp where
  timestamp : Int
  tz_offset : Int
deriving DecidableEq, Repr

/-- Translated from `DatePattern` in `src/lib/src/time_util.rs`: either all
dates at or after the given instant, or all dates strictly before it. -/
inductive DatePattern where
  | atOrAfter (earliest : Int)
  | before (latest : Int)
deriving DecidableEq, Repr

/-- Translated from `DatePattern::matches`: `AtOrAfter` is an inclusive lower
bound, `Before` a strict upper bound on the timestamp. -/
def DatePattern.matches (p : DatePattern) (t : Timestamp) : Bool :=
  match p with
  | .atOrAfter earliest => decide (earliest ≤ t.timestamp)
  | .before latest => decide (t.timestamp < latest)

/-- An author or committer signature (name, email, timestamp). -/
structure SignatureM where
  name : String
  email : String
  timestamp : Timestamp
deriving DecidableEq, Repr

/-- The commit metadata consumed by the date filters. -/
structure CommitMeta where
  author : SignatureM
  committer : SignatureM
deriving DecidableEq, Repr

/-- Modelled from the spec: the revset filter `author_date(d)` applies the
date pattern to the author timestamp (the filter plumbing of the revset
engine is not under `src/`; `DatePattern::matches` itself is source code). -/
def author_date (d : DatePattern) (c : CommitMeta) : Bool :=
  d.matches c.author.timestamp

/-- Modelled from the spec: the revset filter `committer_date(d)` applies the
date pattern to the committer timestamp. -/
def committer_date (d : DatePattern) (c : CommitMeta) : Bool :=
  d.matches c.committer.timestamp

/-- Smallest millisecond value representable by a jiff `Timestamp`
(`-9999-01-01T00:00:00Z`); conversion fails below it. -/
def jiffMinMillis : Int := -377705116800000

/-- Largest millisecond value representable by a jiff `Timestamp`
(`9999-12-31T23:59:59.999Z`); conversion fails above it. -/
def jiffMaxMillis : Int := 253402207199999

/-- A zoned datetime as used by `format_duration`: the underlying instant in
milliseconds plus a fixed offset in hours. Durations between zoned datetimes
compare the instants only. -/
structure ZonedM where
  millis : Int
  offsetHours : Int
deriving DecidableEq, Repr

/-- Translated from the offset computation in `datetime_from_timestamp`:
`(tz_offset / 60).try_into().unwrap_or_default()` (an `i8` conversion that
falls back to `0`), then `Offset::constant`, which accepts only hours in
`-25..=25` (it panics otherwise; the panic is modelled as `none`). -/
def offsetHoursOf (tz : Int) : Option Int :=
  let h := Int.tdiv tz 60
  let h8 := if -128 ≤ h ∧ h ≤ 127 then h else 0
  if -25 ≤ h8 ∧ h8 ≤ 25 then some h8 else none

/-- Translated from `datetime_from_timestamp` in `src/cli/src/time_util.rs`:
converts a `Timestamp` to a zoned datetime at the timestamp's fixed offset,
failing when the instant is outside jiff's representable range. -/
def datetime_from_timestamp (t : Timestamp) : Option ZonedM :=
  if t.timestamp < jiffMinMillis ∨ jiffMaxMillis < t.timestamp then none
  else
    match offsetHoursOf t.tz_offset with
    | some h => some ⟨t.timestamp, h⟩
    | none => none

/-- Translated from `format_duration` in `src/cli/src/time_util.rs`: the
elapsed time is `to.duration_since(from).unsigned_abs()` — the absolute
difference of the two instants — handed to the formatter `f` (the `timeago`
formatter is abstracted as a function from elapsed milliseconds). -/
def format_duration (t1 t2 : Timestamp) (f : Nat → String) : Option String :=
  match datetime_from_timestamp t2, datetime_from_timestamp t1 with
  | some zto, some zfrom => some (f (zto.millis - zfrom.millis).natAbs)
  | _, _ => none

/-! ## `parse_human_byte_size` (`src/lib/src/settings.rs`) -/

/-- Largest `u64` value; saturating arithmetic in the source caps results
here. -/
def U64MAX : Nat := 2 ^ 64 - 1

/-- The binary-prefix characters accepted by `parse_human_byte_size`, in
order of increasing magnitude. -/
def bytePrefixChars : List Char := ['K', 'M', 'G', 'T', 'P', 'E', 'Z', 'Y']

/-- Characters with the Unicode `White_Space` property, as trimmed by Rust's
`str::trim_start`. -/
def isRustWhitespace (c : Char) : Bool :=
  decide (c.toNat = 0x20 ∨ (0x09 ≤ c.toNat ∧ c.toNat ≤ 0x0d) ∨
    c.toNat = 0x85 ∨ c.toNat = 0xa0 ∨ c.toNat = 0x1680 ∨
    (0x2000 ≤ c.toNat ∧ c.toNat ≤ 0x200a) ∨ c.toNat = 0x2028 ∨
    c.toNat = 0x2029 ∨ c.toNat = 0x202f ∨ c.toNat = 0x205f ∨
    c.toNat = 0x3000)

/-- Translated from `digits.parse::<u64>().unwrap_or(u64::MAX)`: a nonempty
all-digit string parses to its value when it fits in `u64` and overflows to
`u64::MAX` otherwise (mirroring the source comment that such a string is
either a valid `u64` or really huge). -/
def parseU64Saturating (digits : List Char) : Nat :=
  let n := digits.foldl (fun acc c => acc * 10 + (c.toNat - '0'.toNat)) 0
  if n ≤ U64MAX then n else U64MAX

/-- Translated from `1024u64.saturating_pow(exponent)`. -/
def satPow1024 (e : Nat) : Nat :=
  if 1024 ^ e ≤ U64MAX then 1024 ^ e else U64MAX

/-- Translated from `u64::saturating_mul`. -/
def satMul (a b : Nat) : Nat :=
  if a * b ≤ U64MAX then a * b else U64MAX

/-- Translated from `PREFIXES.iter().position(|&x| unit.starts_with(x))`:
the index of the first occurrence of `c` in `l`. -/
def posOf (l : List Char) (c : Char) : Option Nat :=
  match l with
  | [] => none
  | x :: rest => if x = c then some 0 else (posOf rest c).map (· + 1)

/-- Translated from the unit-handling `match` in `parse_human_byte_size`:
empty or `B` means no scaling; otherwise the first character must be a binary
prefix and the remainder must be one of `""`, `"B"`, `"i"`, `"iB"`. -/
def unitExponent (unit : List Char) : Except String Nat :=
  match unit with
  | [] => .ok 0
  | c :: rest =>
    if c = 'B' ∧ rest = [] then .ok 0
    else
      match posOf bytePrefixChars c with
      | none => .error ("unrecognized unit prefix")
      | some i =>
        if rest = [] ∨ rest = ['B'] ∨ rest = ['i'] ∨ rest = ['i', 'B'] then
          .ok (i + 1)
        else .error ("unrecognized unit")

/-- Translated from `parse_human_byte_size` in `src/lib/src/settings.rs`,
acting on the character list of the input: split at the first non-digit,
trim leading whitespace from the rest, decode the unit, and combine with
saturating multiplication. -/
def parse_human_byte_size (v : List Char) : Except String Nat :=
  let digits := v.takeWhile Char.isDigit
  if digits.isEmpty then .error ("must start with a number")
  else
    let trailing := (v.drop digits.length).dropWhile isRustWhitespace
    match unitExponent trailing with
    | .error e => .error e
    | .ok exp => .ok (satMul (parseU64Saturating digits) (satPow1024 exp))

/-- A unit accepted by `parse_human_byte_size`: empty, `B`, or a binary
prefix optionally followed by `B`, `i`, or `iB`. -/
def validUnit (u : List Char) : Bool :=
  match u with
  | [] => true
  | c :: rest =>
    decide (c = 'B' ∧ rest = []) ||
      (decide (c ∈ bytePrefixChars) &&
        decide (rest = [] ∨ rest = ['B'] ∨ rest = ['i'] ∨ rest = ['i', 'B']))

/-- Whether an `Except` result is a success. -/
def isOkE : Except String Nat → Bool
  | .ok _ => true
  | .error _ => false

/-! ## Revset data model

The symbol resolver and evaluator are modelled from the spec (the engine
itself is not under `src/`); all concrete behaviour pinned by
`src/lib/tests/test_revset.rs` is reproduced. -/

/-- Modelled from the spec: a `RefTarget` is absent, a single commit id
(normal), or a conflicted target with removes and adds. Commit ids are
index positions. -/
inductive RefTarget where
  | absent
  | normal (id : Nat)
  | conflicted (removes adds : List Nat)

/-- Modelled from the spec: a view snapshot — tag, local-bookmark and
git-ref tables, working-copy commits per workspace, and the visible heads
defining visibility. -/
structure View where
  tags : List (String × RefTarget)
  bookmarks : List (String × RefTarget)
  gitRefs : List (String × RefTarget)
  wc : List (String × Nat)
  visibleHeads : List Nat

/-- Modelled from the spec: the repository index. Commit `p` has index
position `p` (`0 ≤ p < n`); `parents p` lists parent positions (always
smaller than `p` — larger ones are ignored by the ancestor walk, mirroring
the topological index invariant); `committerTs` is the committer timestamp
in milliseconds; `commitHex` and `changeHex` are the rendered commit id
(lowercase hex) and change id (reverse hex, letters `z..k`). -/
structure RepoM where
  n : Nat
  parents : Nat → List Nat
  committerTs : Nat → Int
  commitHex : Nat → String
  changeHex : Nat → String

/-- Ancestor walk with explicit fuel: `ancList par fuel p` collects `p` and,
recursively, the ancestors of the parents of `p` that have smaller
positions. With `fuel = p` the walk is complete because positions strictly
decrease along parent edges. -/
def ancList (par : Nat → List Nat) : Nat → Nat → List Nat
  | 0, p => [p]
  | fuel + 1, p =>
    p :: ((par p).filter (fun q => decide (q < p))).flatMap
      (fun q => ancList par fuel q)

/-- `p` is an ancestor of `q` (reflexively) in the index. -/
def isAncestor (R : RepoM) (p q : Nat) : Prop :=
  p ∈ ancList R.parents q q

instance (R : RepoM) (p q : Nat) : Decidable (isAncestor R p q) := by
  unfold isAncestor; infer_instance

/-- A commit is a common ancestor of a set when it is an ancestor of every
element (spec wording for `fork_point`). -/
def commonAncestor (R : RepoM) (xs : List Nat) (p : Nat) : Prop :=
  ∀ q ∈ xs, isAncestor R p q

instance (R : RepoM) (xs : List Nat) (p : Nat) :
    Decidable (commonAncestor R xs p) := by
  unfold commonAncestor; infer_instance

/-- All index positions in reverse (strictly decreasing) order — the
canonical emission order of the evaluator. -/
def descRange (n : Nat) : List Nat := (List.range n).reverse

/-- A commit is visible when it is an ancestor of some visible head. -/
def isVisible (R : RepoM) (v : View) (p : Nat) : Prop :=
  ∃ h ∈ v.visibleHeads, isAncestor R p h

instance (R : RepoM) (v : View) (p : Nat) : Decidable (isVisible R v p) := by
  unfold isVisible; infer_instance

/-! ## Symbol resolver -/

/-- The ids a ref target resolves to: a normal target gives its single id, a
conflicted target its ordered adds, and a target with no adds is absent. -/
def targetIds : RefTarget → Option (List Nat)
  | .absent => none
  | .normal id => some [id]
  | .conflicted _ adds => if adds.isEmpty then none else some adds

/-- Exact lookup in a ref table, returning ids only for a present target. -/
def lookupPresent (m : List (String × RefTarget)) (s : String) :
    Option (List Nat) :=
  match m.find? (fun kv => decide (kv.fst = s)) with
  | some kv => targetIds kv.snd
  | none => none

/-- Modelled from the spec and pinned by `test_resolve_symbol_git_refs`:
git-ref lookup tries the symbol as given and then with `refs/` prepended
(so `heads/bookmark` finds `refs/heads/bookmark`, but a bare `bookmark`
does not). -/
def resolve_git_ref (v : View) (s : String) : Option (List Nat) :=
  List.findSome? (fun pre => lookupPresent v.gitRefs (pre ++ s))
    ["", "refs/"]

/-- Step 3 of bare-identifier resolution as the code performs it: exact tag,
then exact local bookmark, then git-ref lookup (`resolve_git_ref`). -/
def resolveStep3 (v : View) (s : String) : Option (List Nat) :=
  match lookupPresent v.tags s with
  | some ids => some ids
  | none =>
    match lookupPresent v.bookmarks s with
    | some ids => some ids
    | none => resolve_git_ref v s

/-- Step 3 of bare-identifier resolution exactly as the claim words it:
tag, local bookmark, then git-ref lookup first under `refs/heads/`, then
under `refs/tags/`, then as the name given. -/
def resolveStep3Claimed (v : View) (s : String) : Option (List Nat) :=
  match lookupPresent v.tags s with
  | some ids => some ids
  | none =>
    match lookupPresent v.bookmarks s with
    | some ids => some ids
    | none =>
      match lookupPresent v.gitRefs ("refs/heads/" ++ s) with
      | some ids => some ids
      | none =>
        match lookupPresent v.gitRefs ("refs/tags/" ++ s) with
        | some ids => some ids
        | none => lookupPresent v.gitRefs s

/-- Step 3 as the amended claim words it: tag, local bookmark, then git-ref
lookup first as the name given, then under the `refs/` prefix only. -/
def resolveStep3Amended (v : View) (s : String) : Option (List Nat) :=
  match lookupPresent v.tags s with
  | some ids => some ids
  | none =>
    match lookupPresent v.bookmarks s with
    | some ids => some ids
    | none =>
      match lookupPresent v.gitRefs s with
      | some ids => some ids
      | none => lookupPresent v.gitRefs ("refs/" ++ s)

/-- Modelled from the spec: the resolution errors of the engine. Suggestion
lists of `NoSuchRevision` are not modelled. `ambiguousCommitId` and
`ambiguousChangeId` stand for the `AmbiguousCommitIdPrefix` and
`AmbiguousChangeIdPrefix` errors. -/
inductive RErr where
  | noSuchRevision (name : String)
  | workspaceMissingWorkingCopy (name : String)
  | ambiguousCommitId (pre : String)
  | ambiguousChangeId (pre : String)
  | backend (msg : String)
  | other (msg : String)
deriving DecidableEq, Repr

/-- The errors `present(x)` recovers from: `NoSuchRevision` and
`WorkspaceMissingWorkingCopy` only. -/
def isMissingError : RErr → Bool
  | .noSuchRevision _ => true
  | .workspaceMissingWorkingCopy _ => true
  | _ => false

/-- A lowercase hex digit (the commit-id alphabet). -/
def isHexChar (c : Char) : Bool := c.isDigit || (decide ('a' ≤ c) && decide (c ≤ 'f'))

/-- A reverse-hex letter (the change-id alphabet `z..k`). -/
def isRevHexChar (c : Char) : Bool := decide ('k' ≤ c) && decide ('z' ≥ c)

/-- `pre` is a character-wise prefix of `s`. -/
def strIsPre (pre s : String) : Bool :=
  decide (pre.data = s.data.take pre.data.length)

/-- Modelled from the spec: steps 4–6 of bare-identifier resolution. A
nonempty lowercase-hex string is tried as a commit-id prefix (unique match
resolves, several matches are `ambiguousCommitId`); a reverse-hex string is
tried as a change-id prefix (resolving to all commits sharing the change id,
several distinct change ids are `ambiguousChangeId`); otherwise the name
does not exist. -/
def resolvePrefixes (R : RepoM) (s : String) : Except RErr (List Nat) :=
  let commitMatches :=
    if s ≠ "" ∧ s.data.all isHexChar then
      (List.range R.n).filter (fun p => strIsPre s (R.commitHex p))
    else []
  match commitMatches with
  | [p] => .ok [p]
  | _ :: _ :: _ => .error (.ambiguousCommitId s)
  | [] =>
    if s ≠ "" ∧ s.data.all isRevHexChar then
      let ps := (List.range R.n).filter (fun p => strIsPre s (R.changeHex p))
      if ps.isEmpty then .error (.noSuchRevision s)
      else if (ps.map R.changeHex).dedup.length = 1 then .ok ps
      else .error (.ambiguousChangeId s)
    else .error (.noSuchRevision s)

/-- Modelled from the spec: full bare-identifier resolution — step 3
(tags, bookmarks, git refs), then commit-id and change-id prefixes, then
`NoSuchRevision`. -/
def resolveSymbolFull (R : RepoM) (v : View) (s : String) :
    Except RErr (List Nat) :=
  match resolveStep3 v s with
  | some ids => .ok ids
  | none => resolvePrefixes R s

/-! ## Expression trees -/

/-- Modelled from the spec: the resolved expression tree — no `CommitRef`,
`Present` or `AtOperation` remains after symbol resolution. `Coalesce` is
kept as a binary node; a call `coalesce(x1, …, xn)` is the right-nested
chain built by `coalesceChainC`. `filter` carries an abstract commit
predicate (author/date/description tests and the like). -/
inductive CExpr where
  | none
  | all
  | commits (ids : List Nat)
  | union (a b : CExpr)
  | inter (a b : CExpr)
  | diff (a b : CExpr)
  | latest (a : CExpr) (count : Nat)
  | heads (a : CExpr)
  | forkPoint (a : CExpr)
  | filter (p : Nat → Bool)
  | coalesce (a b : CExpr)

/-- Modelled from the spec: the user expression tree before symbol
resolution, with symbols, working-copy references, `present` and
`at_operation` still present. `atOperation k x` denotes
`at_operation(@-…- , x)` with `k` minus signs (operation references are
resolved relative to the evaluation's current operation). -/
inductive RExpr where
  | none
  | all
  | commits (ids : List Nat)
  | symbol (s : String)
  | workingCopy (ws : String)
  | union (a b : RExpr)
  | inter (a b : RExpr)
  | diff (a b : RExpr)
  | latest (a : RExpr) (count : Nat)
  | heads (a : RExpr)
  | forkPoint (a : RExpr)
  | filter (p : Nat → Bool)
  | coalesce (a b : RExpr)
  | present (a : RExpr)
  | atOperation (k : Nat) (a : RExpr)

/-- The right-nested coalesce chain for an argument list (resolved form). -/
def coalesceChainC : List CExpr → CExpr
  | [] => .none
  | a :: rest => .coalesce a (coalesceChainC rest)

/-- The right-nested coalesce chain for an argument list (user form). -/
def coalesceChainR : List RExpr → RExpr
  | [] => .none
  | a :: rest => .coalesce a (coalesceChainR rest)

/-! ## Evaluator -/

/-- The key by which `latest` ranks candidates: `a` ranks at least as high
as `b` when `a`'s committer timestamp is greater, or the timestamps tie and
`a`'s index position is at least `b`'s (later position wins ties). -/
def latestKeyGE (ts : Nat → Int) (a b : Nat) : Prop :=
  ts b < ts a ∨ (ts b = ts a ∧ b ≤ a)

instance (ts : Nat → Int) : DecidableRel (latestKeyGE ts) := by
  unfold latestKeyGE; infer_instance

instance (ts : Nat → Int) : IsTotal Nat (latestKeyGE ts) where
  total a b := by
    unfold latestKeyGE
    rcases lt_trichotomy (ts a) (ts b) with h | h | h
    · exact Or.inr (Or.inl h)
    · rcases Nat.le_total b a with h2 | h2
      · exact Or.inl (Or.inr ⟨h.symm, h2⟩)
      · exact Or.inr (Or.inr ⟨h, h2⟩)
    · exact Or.inl (Or.inl h)

instance (ts : Nat → Int) : IsTrans Nat (latestKeyGE ts) where
  trans a b c h1 h2 := by
    unfold latestKeyGE at *
    rcases h1 with h1 | ⟨h1, h1b⟩ <;> rcases h2 with h2 | ⟨h2, h2b⟩
    · exact Or.inl (h2.trans h1)
    · exact Or.inl (h2 ▸ h1)
    · exact Or.inl (h1 ▸ h2)
    · exact Or.inr ⟨h1 ▸ h2, h2b.trans h1b⟩

/-- Modelled from the spec and pinned by `test_evaluate_expression_latest`:
`latest(set, n)` keeps the `n` candidates ranking highest by
(committer timestamp, index position) and emits them in decreasing index
position. -/
def latestModel (R : RepoM) (xs : List Nat) (count : Nat) : List Nat :=
  let chosen := (List.insertionSort (latestKeyGE R.committerTs) xs).take count
  (descRange R.n).filter (fun p => decide (p ∈ chosen))

/-- Modelled from the spec: evaluation of a resolved expression against a
view snapshot, producing index positions in strictly decreasing order (the
engine's reverse-topological emission order). Set primitives produce the
defining set in canonical decreasing-position order; `coalesce` evaluates
the first non-empty branch; a top-level `filter` ranges over the visible
commits. -/
def evalM (R : RepoM) (v : View) : CExpr → List Nat
  | .none => []
  | .all => (descRange R.n).filter (fun p => decide (isVisible R v p))
  | .commits ids => (descRange R.n).filter (fun p => decide (p ∈ ids))
  | .union a b =>
    (descRange R.n).filter
      (fun p => decide (p ∈ evalM R v a) || decide (p ∈ evalM R v b))
  | .inter a b => (evalM R v a).filter (fun p => decide (p ∈ evalM R v b))
  | .diff a b => (evalM R v a).filter (fun p => !decide (p ∈ evalM R v b))
  | .latest a count => latestModel R (evalM R v a) count
  | .heads a =>
    let xs := evalM R v a
    xs.filter (fun p => decide (¬ ∃ q ∈ xs, q ≠ p ∧ isAncestor R p q))
  | .forkPoint a =>
    let xs := evalM R v a
    if xs.isEmpty then []
    else
      let ca := (descRange R.n).filter (fun p => decide (commonAncestor R xs p))
      ca.filter (fun p => decide (¬ ∃ q ∈ ca, q ≠ p ∧ isAncestor R p q))
  | .filter p =>
    (descRange R.n).filter (fun q => decide (isVisible R v q) && p q)
  | .coalesce a b =>
    let x := evalM R v a
    if x.isEmpty then evalM R v b else x

/-- The view the evaluator uses at operation index `c` (index 0 is `@`,
index `k` is `@` followed by `k` minus signs). -/
def viewAt (log : List View) (c : Nat) : View :=
  log.getD c ⟨[], [], [], [], []⟩

/-- Modelled from the spec: symbol resolution of a user expression at the
operation whose index in the operation log is `cur`. Symbols resolve
against the current view; `present` recovers only missing-revision errors;
`at_operation` resolves the operation relative to `cur`, resolves and
evaluates the inner expression inside that operation's view, and replaces
it by the bare resulting commit ids; `coalesce` resolves both branches. -/
def resolveModel (R : RepoM) (log : List View) (cur : Nat) :
    RExpr → Except RErr CExpr
  | .none => .ok .none
  | .all => .ok .all
  | .commits ids => .ok (.commits ids)
  | .symbol s => (resolveSymbolFull R (viewAt log cur) s).map .commits
  | .workingCopy ws =>
    match (viewAt log cur).wc.find? (fun kv => decide (kv.fst = ws)) with
    | some kv => .ok (.commits [kv.snd])
    | Option.none => .error (.workspaceMissingWorkingCopy ws)
  | .union a b => do
    let x ← resolveModel R log cur a
    let y ← resolveModel R log cur b
    .ok (.union x y)
  | .inter a b => do
    let x ← resolveModel R log cur a
    let y ← resolveModel R log cur b
    .ok (.inter x y)
  | .diff a b => do
    let x ← resolveModel R log cur a
    let y ← resolveModel R log cur b
    .ok (.diff x y)
  | .latest a count => do
    let x ← resolveModel R log cur a
    .ok (.latest x count)
  | .heads a => do
    let x ← resolveModel R log cur a
    .ok (.heads x)
  | .forkPoint a => do
    let x ← resolveModel R log cur a
    .ok (.forkPoint x)
  | .filter p => .ok (.filter p)
  | .coalesce a b => do
    let x ← resolveModel R log cur a
    let y ← resolveModel R log cur b
    .ok (.coalesce x y)
  | .present a =>
    match resolveModel R log cur a with
    | .ok x => .ok x
    | .error (.noSuchRevision _) => .ok .none
    | .error (.workspaceMissingWorkingCopy _) => .ok .none
    | .error e => .error e
  | .atOperation k a =>
    if cur + k < log.length then
      match resolveModel R log (cur + k) a with
      | .ok x => .ok (.commits (evalM R (viewAt log (cur + k)) x))
      | .error e => .error e
    else .error (.other ("no such operation"))

/-- The full pipeline: resolve a user expression at operation `cur`, then
evaluate it against that operation's view. -/
def resolveEval (R : RepoM) (log : List View) (cur : Nat) (x : RExpr) :
    Except RErr (List Nat) :=
  (resolveModel R log cur x).map (evalM R (viewAt log cur))

/-- The first non-empty list among the given ones (spec wording for
`coalesce`), or the empty list. -/
def firstNonEmpty : List (List Nat) → List Nat
  | [] => []
  | l :: rest => if l.isEmpty then firstNonEmpty rest else l

/-- Spec wording for `fork_point`: a greatest common ancestor of `xs` is a
common ancestor of which no other common ancestor (at any index position)
is a proper descendant. -/
def isGCA (R : RepoM) (xs : List Nat) (p : Nat) : Prop :=
  p < R.n ∧ commonAncestor R xs p ∧
    ∀ q ∈ List.range R.n, q ≠ p → commonAncestor R xs q → ¬ isAncestor R p q

instance (R : RepoM) (xs : List Nat) (p : Nat) : Decidable (isGCA R xs p) := by
  unfold isGCA; infer_instance

/-! ## Concrete fixtures mirroring `src/lib/tests/test_revset.rs` -/

/-- The view of `test_resolve_symbol_tags`: a tag and a local bookmark both
named `tag-bookmark` (targets commit 1 and commit 2), quoted `@` and `root`
tags, and an unimported git tag ref. -/
def vTag : View :=
  ⟨[("tag-bookmark", .normal 1), ("@", .normal 2), ("root", .normal 3)],
   [("tag-bookmark", .normal 2)],
   [("refs/tags/unimported", .normal 3)], [], []⟩

/-- The view of `test_resolve_symbol_git_refs`: git refs under `refs/heads/`
and `refs/tags/`, including a conflicted ref and same-name heads/tags
entries for `bookmark` and `tag`. -/
def vGit : View :=
  ⟨[], [],
   [("refs/heads/bookmark1", .normal 1), ("refs/heads/bookmark2", .normal 2),
    ("refs/heads/conflicted", .conflicted [2] [1, 3]),
    ("refs/tags/tag1", .normal 2),
    ("refs/tags/remotes/origin/bookmark1", .normal 3),
    ("refs/heads/bookmark", .normal 5), ("refs/tags/bookmark", .normal 4),
    ("refs/tags/tag", .normal 4),
    ("refs/remotes/origin/remote-bookmark", .normal 2)], [], []⟩

/-- A six-commit repository for the git-ref resolution scenario (ids chosen
so that no tested symbol is a hex or reverse-hex prefix). -/
def RC1 : RepoM := ⟨6, fun _ => [], fun _ => 0, fun _ => "ffffff", fun _ => "zzzzzz"⟩

/-- The repository of `test_evaluate_expression_latest`: the root commit and
four commits with committer timestamps 3s, 2s, 2s, 1s at positions 1–4. -/
def RC2 : RepoM :=
  ⟨5, fun p => if p == 0 then [] else [0],
   fun p =>
     if p == 1 then 3000
     else if p == 2 || p == 3 then 2000
     else if p == 4 then 1000 else 0,
   fun _ => "ffffff", fun _ => "zzzzzz"⟩

/-- The view for the `latest` scenario: all four non-root commits visible. -/
def vC2 : View := ⟨[], [], [], [], [4, 3, 2, 1]⟩

/-- The repository of `test_resolve_symbol_commit_id`: commit ids sharing
the prefix `01`, with `017d` unique at position 3. -/
def RC3 : RepoM :=
  ⟨4, fun p => if p == 0 then [] else [0], fun _ => 0,
   fun p =>
     if p == 1 then ("019f")
     else if p == 2 then ("019b")
     else if p == 3 then ("017d") else ("0000"),
   fun _ => "zzzz"⟩

/-- The view for the commit-id prefix scenario (no refs, no working copy,
so `ws1` has no working-copy commit). -/
def vC3 : View := ⟨[], [], [], [], [3, 2, 1]⟩

/-- The repository of `test_evaluate_expression_coalesce`: root, `commit1`
and its child `commit2`. -/
def RC4 : RepoM :=
  ⟨3, fun p => if p == 2 then [1] else if p == 1 then [0] else [],
   fun _ => 0, fun _ => "ffff", fun _ => "zzzz"⟩

/-- The view for the coalesce scenario: bookmarks `commit1` and `commit2`. -/
def vC4 : View :=
  ⟨[], [("commit1", .normal 1), ("commit2", .normal 2)], [], [], [2]⟩

/-- The repository of `test_evaluate_expression_at_operation`: root (0),
`commit1@op1` (1), `commit2@op1` (2), the rewrite `commit1@op2` (3) and
`commit3@op2` (4). -/
def RC7 : RepoM :=
  ⟨5, fun p => if p == 0 then [] else [0], fun _ => 0,
   fun _ => "ffff", fun _ => "zzzz"⟩

/-- The operation log for the `at_operation` scenario: index 0 is `@`
(the rewrite visible, `commit1_ref` at commit 3), index 1 is `@-`
(`commit1_ref` at commit 1), index 2 the initial operation. -/
def logC7 : List View :=
  [⟨[], [("commit1_ref", .normal 3)], [], [], [4, 3, 2]⟩,
   ⟨[], [("commit1_ref", .normal 1)], [], [], [2, 1]⟩,
   ⟨[], [], [], [], [0]⟩]

/-- The criss-cross repository of
`test_evaluate_expression_fork_point_criss_cross`: commits 3 and 4 each
have parents 1 and 2, which are both children of the root 0. -/
def RC8 : RepoM :=
  ⟨5,
   fun p =>
     if p == 1 || p == 2 then [0]
     else if p == 3 || p == 4 then [1, 2] else [],
   fun _ => 0, fun _ => "ffff", fun _ => "zzzz"⟩

/-- The view for the criss-cross scenario: both criss-cross heads visible. -/
def vC8 : View := ⟨[], [], [], [], [4, 3]⟩

/-! ## Helper lemmas -/

theorem sorted_descRange (n : Nat) : List.Sorted (· > ·) (descRange n) := by
  simpa [descRange, List.Sorted, List.pairwise_reverse] using
    List.pairwise_lt_range n

theorem mem_descRange (n x : Nat) : x ∈ descRange n ↔ x < n := by
  simp [descRange]

theorem sorted_evalM (R : RepoM) (v : View) (e : CExpr) :
    List.Sorted (· > ·) (evalM R v e) := by
  induction e with
  | none => simp [evalM]
  | all => exact (sorted_descRange R.n).filter _
  | commits ids => exact (sorted_descRange R.n).filter _
  | union a b iha ihb => exact (sorted_descRange R.n).filter _
  | inter a b iha ihb => exact iha.filter _
  | diff a b iha ihb => exact iha.filter _
  | latest a count iha => exact (sorted_descRange R.n).filter _
  | heads a iha => exact iha.filter _
  | forkPoint a iha =>
    simp only [evalM]
    split
    · simp
    · exact ((sorted_descRange R.n).filter _).filter _
  | filter p => exact (sorted_descRange R.n).filter _
  | coalesce a b iha ihb =>
    simp only [evalM]
    split
    · exact ihb
    · exact iha

theorem mem_evalM_lt (R : RepoM) (v : View) (e : CExpr) :
    ∀ x ∈ evalM R v e, x < R.n := by
  induction e with
  | none => simp [evalM]
  | all =>
    intro x hx
    exact (mem_descRange R.n x).mp (List.mem_filter.mp hx).1
  | commits ids =>
    intro x hx
    exact (mem_descRange R.n x).mp (List.mem_filter.mp hx).1
  | union a b iha ihb =>
    intro x hx
    exact (mem_descRange R.n x).mp (List.mem_filter.mp hx).1
  | inter a b iha ihb =>
    intro x hx
    exact iha x (List.mem_filter.mp hx).1
  | diff a b iha ihb =>
    intro x hx
    exact iha x (List.mem_filter.mp hx).1
  | latest a count iha =>
    intro x hx
    simp only [evalM, latestModel] at hx
    exact (mem_descRange R.n x).mp (List.mem_filter.mp hx).1
  | heads a iha =>
    intro x hx
    simp only [evalM] at hx
    exact iha x (List.mem_filter.mp hx).1
  | forkPoint a iha =>
    intro x hx
    simp only [evalM] at hx
    split at hx
    · simp at hx
    · exact (mem_descRange R.n x).mp
        (List.mem_filter.mp (List.mem_filter.mp hx).1).1
  | filter p =>
    intro x hx
    exact (mem_descRange R.n x).mp (List.mem_filter.mp hx).1
  | coalesce a b iha ihb =>
    intro x hx
    simp only [evalM] at hx
    split at hx
    · exact ihb x hx
    · exact iha x hx

theorem filter_descRange_eq (n : Nat) :
    ∀ l : List Nat, List.Sorted (· > ·) l → (∀ x ∈ l, x < n) →
      (descRange n).filter (fun p => decide (p ∈ l)) = l := by
  induction n with
  | zero =>
    intro l hs hb
    cases l with
    | nil => simp [descRange]
    | cons a t => exact absurd (hb a (List.mem_cons_self a t)) (by omega)
  | succ n ih =>
    intro l hs hb
    have hdr : descRange (n + 1) = n :: descRange n := by
      simp [descRange, List.range_succ]
    rw [hdr]
    by_cases hn : n ∈ l
    · cases l with
      | nil => simp at hn
      | cons a t =>
        have ha : a = n := by
          rcases List.mem_cons.mp hn with h | h
          · omega
          · have h1 := (List.sorted_cons.mp hs).1 n h
            have h2 := hb a (List.mem_cons_self a t)
            omega
        subst ha
        rw [List.filter_cons_of_pos (by simp)]
        have hcongr : (descRange a).filter (fun p => decide (p ∈ a :: t)) =
            (descRange a).filter (fun p => decide (p ∈ t)) := by
          apply List.filter_congr
          intro p hp
          have hpn : p < a := (mem_descRange a p).mp hp
          rw [decide_eq_decide]
          simp only [List.mem_cons]
          constructor
          · rintro (rfl | h)
            · omega
            · exact h
          · exact Or.inr
        have htail : (descRange a).filter (fun p => decide (p ∈ a :: t)) = t := by
          rw [hcongr]
          exact ih t (List.sorted_cons.mp hs).2
            (fun x hx => (List.sorted_cons.mp hs).1 x hx)
        rw [htail]
    · rw [List.filter_cons_of_neg (by simp [hn])]
      refine ih l hs (fun x hx => ?_)
      have h1 := hb x hx
      have h2 : x ≠ n := fun h => hn (h ▸ hx)
      omega

theorem str_empty_append (s : String) : "" ++ s = s := by
  cases s
  rfl

theorem resolve_git_ref_eq (v : View) (s : String) :
    resolve_git_ref v s =
      match lookupPresent v.gitRefs s with
      | some ids => some ids
      | none => lookupPresent v.gitRefs ("refs/" ++ s) := by
  unfold resolve_git_ref
  rw [List.findSome?_cons, str_empty_append]
  cases lookupPresent v.gitRefs s with
  | some ids => rfl
  | none =>
    rw [List.findSome?_cons]
    cases lookupPresent v.gitRefs ("refs/" ++ s) <;> rfl

/-! ## Claim theorems -/

/-- Claim C6: an `after:` pattern matches a timestamp exactly when the
parsed instant is at most the timestamp (inclusive lower bound), a
`before:` pattern exactly when the timestamp is strictly below the parsed
instant, and `author_date`/`committer_date` apply this test to the author
and committer timestamps respectively. -/
theorem date_pattern_c6 :
    (∀ (e : Int) (t : Timestamp),
      DatePattern.matches (.atOrAfter e) t = true ↔ e ≤ t.timestamp) ∧
    (∀ (l : Int) (t : Timestamp),
      DatePattern.matches (.before l) t = true ↔ t.timestamp < l) ∧
    (∀ (d : DatePattern) (c : CommitMeta),
      author_date d c = d.matches c.author.timestamp) ∧
    (∀ (d : DatePattern) (c : CommitMeta),
      committer_date d c = d.matches c.committer.timestamp) := by
  refine ⟨fun e t => ?_, fun l t => ?_, fun d c => rfl, fun d c => rfl⟩
  · simp [DatePattern.matches]
  · simp [DatePattern.matches]

/-- Claim C9: `format_duration` takes the unsigned absolute difference of
the two instants, so swapping the `from` and `to` arguments never changes
the formatted output. -/
theorem format_duration_c9 (a b : Timestamp) (f : Nat → String) :
    format_duration a b f = format_duration b a f := by
  unfold format_duration
  cases h1 : datetime_from_timestamp a <;>
    cases h2 : datetime_from_timestamp b <;> simp
  congr 1
  omega

/-- Claim C5: evaluation of any (resolved) expression on a fixed repository
snapshot emits commit positions in strictly decreasing index position, and
no commit is emitted twice. -/
theorem iter_order_c5 (R : RepoM) (v : View) (e : CExpr) :
    List.Sorted (· > ·) (evalM R v e) ∧ (evalM R v e).Nodup :=
  ⟨sorted_evalM R v e, (sorted_evalM R v e).imp (fun h => ne_of_gt h)⟩

/-- Claim C1 counterexample: in the view of `test_resolve_symbol_git_refs`
(git refs `refs/heads/bookmark` and `refs/tags/bookmark` present, likewise
`refs/tags/tag`), the lookup order the claim describes resolves the bare
symbols `bookmark` and `tag`, but the engine — as pinned by that test —
leaves them unresolved (`NoSuchRevision`). -/
theorem resolve_symbol_c1_cex :
    resolveStep3Claimed vGit ("bookmark") = some [5] ∧
    resolveStep3 vGit ("bookmark") = none ∧
    resolveStep3Claimed vGit ("tag") = some [4] ∧
    resolveStep3 vGit ("tag") = none ∧
    resolveSymbolFull RC1 vGit ("bookmark") = .error (.noSuchRevision ("bookmark")) := by
  refine ⟨rfl, rfl, rfl, rfl, rfl⟩

/-- Claim C1 (amended): bare-identifier resolution tries, in order, exact
tag, exact local bookmark, then git-ref lookup first as the name given and
then with `refs/` prepended; an earlier match shadows later steps, and a
conflicted target resolves to its ordered adds (concrete conjuncts mirror
`test_resolve_symbol_tags` and `test_resolve_symbol_git_refs`). -/
theorem resolve_symbol_c1_amended :
    (∀ (v : View) (s : String), resolveStep3 v s = resolveStep3Amended v s) ∧
    resolveStep3 vTag ("tag-bookmark") = some [1] ∧
    resolveStep3 vGit ("refs/heads/conflicted") = some [1, 3] ∧
    resolveStep3 vGit ("heads/bookmark") = some [5] ∧
    resolveStep3 vGit ("nonexistent") = none := by
  refine ⟨fun v s => ?_, rfl, rfl, rfl, rfl⟩
  unfold resolveStep3 resolveStep3Amended
  cases lookupPresent v.tags s with
  | some ids => rfl
  | none =>
    cases lookupPresent v.bookmarks s with
    | some ids => rfl
    | none =>
      rw [resolve_git_ref_eq]

/-- Claim C3: `present(x)` recovers exactly the `NoSuchRevision` and
`WorkspaceMissingWorkingCopy` resolution failures of `x` (yielding the
empty set), propagates every other failure unchanged, and is the identity
when `x` resolves; the concrete conjuncts mirror
`test_resolve_symbol_commit_id` and `test_resolve_working_copy`
(an unknown name and a missing working copy are recovered, an ambiguous
commit-id prefix is not). -/
theorem present_c3 :
    (∀ (R : RepoM) (log : List View) (cur : Nat) (x : RExpr),
      resolveModel R log cur (.present x) =
        match resolveModel R log cur x with
        | .ok ce => .ok ce
        | .error e => if isMissingError e then .ok .none else .error e) ∧
    resolveEval RC3 [vC3] 0 (.present (.symbol ("foo"))) = .ok [] ∧
    resolveEval RC3 [vC3] 0 (.present (.symbol ("01"))) =
      .error (.ambiguousCommitId ("01")) ∧
    resolveEval RC3 [vC3] 0 (.present (.workingCopy ("ws1"))) = .ok [] ∧
    resolveEval RC3 [vC3] 0 (.present (.symbol ("017"))) = .ok [3] := by
  refine ⟨fun R log cur x => ?_, rfl, rfl, rfl, rfl⟩
  cases h : resolveModel R log cur x with
  | ok ce => simp [resolveModel, h]
  | error e => cases e <;> simp [resolveModel, h, isMissingError]

/-- Claim C2 counterexample: in the four-commit scenario of
`test_evaluate_expression_latest` (committer timestamps 3s, 2s, 2s, 1s at
positions 1–4), `latest(all(), 2)` evaluates to `[3, 1]` — the
later-positioned `t=2` commit first — not to `[1, 3]` (the `t=3` commit
followed by the `t=2` commit) as the claim states. -/
theorem latest_c2_cex :
    evalM RC2 vC2 (.latest .all 2) = [3, 1] ∧
    evalM RC2 vC2 (.latest .all 2) ≠ [1, 3] := by
  refine ⟨rfl, by decide⟩

/-- Claim C2 (amended): `latest(set, n)` selects the `n` commits ranking
highest by (committer timestamp, index position) — every selected commit
ranks at least as high as every unselected candidate, so ties favour the
later index position — and emits the selection in strictly decreasing
index position; hence `latest(all(), 2)` in the scenario above returns the
later-positioned `t=2` commit followed by the `t=3` commit. -/
theorem latest_c2_amended :
    evalM RC2 vC2 (.latest .all 2) = [3, 1] ∧
    (∀ (R : RepoM) (v : View) (a : CExpr) (count x y : Nat),
      x ∈ evalM R v (.latest a count) → y ∈ evalM R v a →
      y ∉ evalM R v (.latest a count) →
      latestKeyGE R.committerTs x y) ∧
    (∀ (R : RepoM) (v : View) (a : CExpr) (count : Nat),
      List.Sorted (· > ·) (evalM R v (.latest a count))) := by
  refine ⟨rfl, ?_, fun R v a count => sorted_evalM R v (.latest a count)⟩
  intro R v a count x y hx hy hyn
  simp only [evalM, latestModel] at hx hyn
  have hx2 : x ∈ (List.insertionSort (latestKeyGE R.committerTs)
      (evalM R v a)).take count := by
    have h2 := (List.mem_filter.mp hx).2
    simpa using h2
  have hy2 : y ∉ (List.insertionSort (latestKeyGE R.committerTs)
      (evalM R v a)).take count := by
    intro hc
    apply hyn
    refine List.mem_filter.mpr ⟨?_, by simpa using hc⟩
    exact (mem_descRange R.n y).mpr (mem_evalM_lt R v a y hy)
  have hys : y ∈ List.insertionSort (latestKeyGE R.committerTs) (evalM R v a) :=
    (List.perm_insertionSort _ _).mem_iff.mpr hy
  have hyd : y ∈ (List.insertionSort (latestKeyGE R.committerTs)
      (evalM R v a)).drop count := by
    have hsplit : y ∈ (List.insertionSort (latestKeyGE R.committerTs)
        (evalM R v a)).take count ++ (List.insertionSort
        (latestKeyGE R.committerTs) (evalM R v a)).drop count := by
      rw [List.take_append_drop]
      exact hys
    rcases List.mem_append.mp hsplit with h | h
    · exact absurd h hy2
    · exact h
  exact (List.sorted_insertionSort _ _).rel_of_mem_take_of_mem_drop hx2 hyd

/-- Witness for the amended C2 theorem: in the `latest` scenario, the
selected commit 3 ranks at least as high as the unselected candidate 0. -/
theorem latest_c2_witness : latestKeyGE RC2.committerTs 3 0 :=
  latest_c2_amended.2.1 RC2 vC2 .all 2 3 0 (by decide) (by decide) (by decide)

theorem coalesce_resolve_err (R : RepoM) (log : List View) (cur : Nat) :
    ∀ (args : List RExpr) (a : RExpr) (err : RErr), a ∈ args →
      resolveModel R log cur a = .error err →
      ∃ e2, resolveModel R log cur (coalesceChainR args) = .error e2 := by
  intro args
  induction args with
  | nil =>
    intro a err h
    exact absurd h (List.not_mem_nil a)
  | cons b rest ih =>
    intro a err hmem herr
    cases hb : resolveModel R log cur b with
    | error e =>
      refine ⟨e, ?_⟩
      simp [coalesceChainR, resolveModel, hb, Bind.bind, Except.bind]
    | ok xb =>
      rcases List.mem_cons.mp hmem with rfl | hmem2
      · rw [herr] at hb
        exact Except.noConfusion hb
      · obtain ⟨e2, h2⟩ := ih a err hmem2 herr
        refine ⟨e2, ?_⟩
        simp [coalesceChainR, resolveModel, hb, h2, Bind.bind, Except.bind]

theorem coalesce_eval_first (R : RepoM) (v : View) :
    ∀ rs : List CExpr,
      evalM R v (coalesceChainC rs) = firstNonEmpty (rs.map (evalM R v)) := by
  intro rs
  induction rs with
  | nil => simp [coalesceChainC, evalM, firstNonEmpty]
  | cons a rest ih =>
    simp only [coalesceChainC, evalM, List.map, firstNonEmpty]
    rw [ih]

/-- Claim C4: `coalesce` resolves the symbols of all its arguments — a
resolution error in any argument fails the whole query, even when an
earlier argument is non-empty — and evaluates to the first argument whose
evaluation is non-empty (the empty set when there is none); the concrete
conjuncts mirror `test_evaluate_expression_coalesce`. -/
theorem coalesce_c4 :
    (∀ (R : RepoM) (log : List View) (cur : Nat) (args : List RExpr)
        (a : RExpr) (err : RErr), a ∈ args →
      resolveModel R log cur a = .error err →
      ∃ e2, resolveModel R log cur (coalesceChainR args) = .error e2) ∧
    (∀ (R : RepoM) (v : View) (rs : List CExpr),
      evalM R v (coalesceChainC rs) = firstNonEmpty (rs.map (evalM R v))) ∧
    resolveEval RC4 [vC4] 0
      (coalesceChainR [.all, .symbol ("commit1_invalid")]) =
      .error (.noSuchRevision ("commit1_invalid")) ∧
    resolveEval RC4 [vC4] 0
      (coalesceChainR [.none, .symbol ("commit1"), .symbol ("commit2")]) =
      .ok [1] ∧
    resolveEval RC4 [vC4] 0
      (coalesceChainR [.symbol ("commit1"), .symbol ("commit2")]) = .ok [1] :=
  ⟨coalesce_resolve_err, coalesce_eval_first, rfl, rfl, rfl⟩

/-- Witness for C4: a coalesce whose argument list contains an unresolvable
symbol after a non-empty argument fails to resolve. -/
theorem coalesce_c4_witness :
    ∃ e2, resolveModel RC4 [vC4] 0
      (coalesceChainR [RExpr.all, RExpr.symbol ("commit1_invalid")]) =
      .error e2 :=
  coalesce_c4.1 RC4 [vC4] 0 [RExpr.all, RExpr.symbol ("commit1_invalid")]
    (RExpr.symbol ("commit1_invalid")) (RErr.noSuchRevision ("commit1_invalid"))
    (List.mem_cons_of_mem _ (List.mem_cons_self _ _)) rfl

/-- Claim C7: `at_operation(op, x)` resolves and evaluates `x` inside the
view snapshot of `op` and returns the resulting commit ids to the outer
evaluator unchanged — they are not intersected with the outer view's
visible commits — so the result can contain commits hidden in the current
snapshot; the concrete conjuncts mirror
`test_evaluate_expression_at_operation` (commit 1, the predecessor
rewritten since `@-`, is hidden at `@` yet returned by
`at_operation(@-, all())`). -/
theorem at_operation_c7 :
    (∀ (R : RepoM) (log : List View) (cur k : Nat) (x : RExpr),
      cur + k < log.length →
      resolveEval R log cur (.atOperation k x) =
        resolveEval R log (cur + k) x) ∧
    resolveEval RC7 logC7 0 (.atOperation 1 (.symbol ("commit1_ref"))) =
      .ok [1] ∧
    resolveEval RC7 logC7 0 (.atOperation 1 .all) = .ok [2, 1, 0] ∧
    1 ∈ ((resolveEval RC7 logC7 0 (.atOperation 1 .all)).toOption.getD []) ∧
    1 ∉ ((resolveEval RC7 logC7 0 .all).toOption.getD []) := by
  refine ⟨?_, rfl, rfl, by decide, by decide⟩
  intro R log cur k x h
  unfold resolveEval
  simp only [resolveModel]
  rw [if_pos h]
  cases hr : resolveModel R log (cur + k) x with
  | error e => simp [hr, Except.map]
  | ok ce =>
    have hcom : evalM R (viewAt log cur)
        (.commits (evalM R (viewAt log (cur + k)) ce)) =
        evalM R (viewAt log (cur + k)) ce := by
      simp only [evalM]
      exact filter_descRange_eq R.n _ (sorted_evalM R (viewAt log (cur + k)) ce)
        (mem_evalM_lt R (viewAt log (cur + k)) ce)
    simp [hr, Except.map, hcom]

/-- Witness for C7: at the concrete operation log of the `at_operation`
scenario, evaluating `at_operation(@-, all())` from `@` equals evaluating
`all()` directly at `@-`. -/
theorem at_operation_c7_witness :
    resolveEval RC7 logC7 0 (.atOperation 1 RExpr.all) =
      resolveEval RC7 logC7 (0 + 1) RExpr.all :=
  at_operation_c7.1 RC7 logC7 0 1 RExpr.all (by decide)

/-- Claim C8: `fork_point(set)` returns exactly the greatest common
ancestors of the set, of which there can be several: in the criss-cross
history where commits 3 and 4 each have parents 1 and 2,
`fork_point(3 | 4)` is `{2, 1}` (two commits, emitted as `[2, 1]`),
mirroring `test_evaluate_expression_fork_point_criss_cross`. -/
theorem fork_point_c8 :
    (∀ (R : RepoM) (v : View) (a : CExpr) (p : Nat),
      evalM R v a ≠ [] →
      (p ∈ evalM R v (.forkPoint a) ↔ isGCA R (evalM R v a) p)) ∧
    evalM RC8 vC8 (.forkPoint (.commits [3, 4])) = [2, 1] ∧
    (evalM RC8 vC8 (.forkPoint (.commits [3, 4]))).length = 2 := by
  refine ⟨?_, rfl, rfl⟩
  intro R v a p h
  have hne : (evalM R v a).isEmpty = false := by
    cases hv : evalM R v a with
    | nil => exact absurd hv h
    | cons q t => rfl
  simp only [evalM, hne, Bool.false_eq_true, if_false]
  constructor
  · intro hp
    obtain ⟨hpca, hpred⟩ := List.mem_filter.mp hp
    obtain ⟨hpd, hpc⟩ := List.mem_filter.mp hpca
    have hpn : p < R.n := (mem_descRange _ _).mp hpd
    have hpc2 : commonAncestor R (evalM R v a) p := of_decide_eq_true hpc
    have hpred2 := of_decide_eq_true hpred
    refine ⟨hpn, hpc2, ?_⟩
    intro q hq hqp hqc hanc
    exact hpred2 ⟨q, List.mem_filter.mpr
      ⟨(mem_descRange _ _).mpr (List.mem_range.mp hq), decide_eq_true hqc⟩,
      hqp, hanc⟩
  · rintro ⟨hpn, hpc, hmax⟩
    refine List.mem_filter.mpr ⟨List.mem_filter.mpr
      ⟨(mem_descRange _ _).mpr hpn, decide_eq_true hpc⟩, decide_eq_true ?_⟩
    rintro ⟨q, hqca, hqp, hanc⟩
    obtain ⟨hqd, hqc⟩ := List.mem_filter.mp hqca
    exact hmax q (List.mem_range.mpr ((mem_descRange _ _).mp hqd)) hqp
      (of_decide_eq_true hqc) hanc

/-- Witness for C8: the general characterisation applied to the concrete
criss-cross scenario, with commit 2 as the probed position. -/
theorem fork_point_c8_witness :
    2 ∈ evalM RC8 vC8 (.forkPoint (.commits [3, 4])) ↔
      isGCA RC8 (evalM RC8 vC8 (.commits [3, 4])) 2 :=
  fork_point_c8.1 RC8 vC8 (.commits [3, 4]) 2 (by decide)

theorem posOf_eq_none_iff (c : Char) :
    ∀ l : List Char, posOf l c = none ↔ c ∉ l := by
  intro l
  induction l with
  | nil => simp [posOf]
  | cons x rest ih =>
    by_cases h : x = c
    · subst h
      simp [posOf]
    · rw [List.mem_cons]
      simp only [posOf, if_neg h, Option.map_eq_none']
      rw [ih]
      constructor
      · intro hni hmem
        rcases hmem with h1 | h1
        · exact h h1.symm
        · exact hni h1
      · intro hni h1
        exact hni (Or.inr h1)

theorem posOf_some_mem (c : Char) (l : List Char) (i : Nat)
    (h : posOf l c = some i) : c ∈ l := by
  by_contra hn
  rw [(posOf_eq_none_iff c l).mpr hn] at h
  exact Option.noConfusion h

theorem unitExponent_ok_iff (u : List Char) :
    isOkE (unitExponent u) = validUnit u := by
  cases u with
  | nil => rfl
  | cons c rest =>
    by_cases hB : c = 'B' ∧ rest = []
    · simp [unitExponent, validUnit, hB, isOkE]
    · simp only [unitExponent, validUnit, if_neg hB]
      cases hp : posOf bytePrefixChars c with
      | none =>
        have hnm : c ∉ bytePrefixChars := (posOf_eq_none_iff c _).mp hp
        simp [isOkE, decide_eq_false hB, decide_eq_false hnm]
      | some i =>
        have hm : c ∈ bytePrefixChars := posOf_some_mem c _ i hp
        by_cases hr : rest = [] ∨ rest = ['B'] ∨ rest = ['i'] ∨
          rest = ['i', 'B']
        · simp [isOkE, decide_eq_false hB, decide_eq_true hm,
            decide_eq_true hr, if_pos hr]
        · simp [isOkE, decide_eq_false hB, decide_eq_true hm,
            decide_eq_false hr, if_neg hr]

theorem validUnit_head (u : List Char) (h : validUnit u = true) :
    ∀ c, u.head? = some c →
      c.isDigit = false ∧ isRustWhitespace c = false := by
  cases u with
  | nil =>
    intro c hc
    exact Option.noConfusion hc
  | cons c0 rest =>
    intro c hc
    have hc0 : c0 = c := Option.some.inj hc
    subst hc0
    simp only [validUnit, Bool.or_eq_true, Bool.and_eq_true,
      decide_eq_true_eq] at h
    rcases h with ⟨hB, _⟩ | ⟨hm, _⟩
    · subst hB
      exact ⟨rfl, rfl⟩
    · simp only [bytePrefixChars, List.mem_cons, List.not_mem_nil,
        or_false] at hm
      rcases hm with rfl | rfl | rfl | rfl | rfl | rfl | rfl | rfl <;>
        exact ⟨rfl, rfl⟩

theorem takeWhile_all_append (p : Char → Bool) (rest : List Char)
    (h2 : ∀ c, rest.head? = some c → p c = false) :
    ∀ ds : List Char, (∀ c ∈ ds, p c = true) →
      (ds ++ rest).takeWhile p = ds := by
  intro ds
  induction ds with
  | nil =>
    intro h1
    cases rest with
    | nil => rfl
    | cons r rt => simp [List.takeWhile_cons, h2 r rfl]
  | cons d dt ih =>
    intro h1
    simp only [List.cons_append, List.takeWhile_cons,
      h1 d (List.mem_cons_self d dt), if_true]
    rw [ih (fun c hc => h1 c (List.mem_cons_of_mem d hc))]

theorem dropWhile_ws_append (u : List Char)
    (h2 : ∀ c, u.head? = some c → isRustWhitespace c = false) :
    ∀ ws : List Char, (∀ c ∈ ws, c = ' ') →
      (ws ++ u).dropWhile isRustWhitespace = u := by
  intro ws
  induction ws with
  | nil =>
    intro h1
    cases u with
    | nil => rfl
    | cons r rt => simp [List.dropWhile_cons, h2 r rfl]
  | cons w wt ih =>
    intro h1
    have hw : w = ' ' := h1 w (List.mem_cons_self w wt)
    subst hw
    simp only [List.cons_append, List.dropWhile_cons,
      show isRustWhitespace (' ') = true from by decide, if_true]
    exact ih (fun c hc => h1 c (List.mem_cons_of_mem _ hc))

theorem parse_ok_iff (v : List Char) :
    isOkE (parse_human_byte_size v) = true ↔
      ((v.takeWhile Char.isDigit).isEmpty = false ∧
        validUnit ((v.drop (v.takeWhile Char.isDigit).length).dropWhile
          isRustWhitespace) = true) := by
  unfold parse_human_byte_size
  cases hd : (v.takeWhile Char.isDigit).isEmpty with
  | true => simp [hd, isOkE]
  | false =>
    simp only [hd, Bool.false_eq_true, if_false]
    rw [← unitExponent_ok_iff]
    cases he : unitExponent ((v.drop (v.takeWhile Char.isDigit).length).dropWhile
        isRustWhitespace) with
    | ok e => simp [he, isOkE]
    | error e => simp [he, isOkE]

theorem parse_le_max (v : List Char) (m : Nat)
    (h : parse_human_byte_size v = .ok m) : m ≤ U64MAX := by
  unfold parse_human_byte_size at h
  cases hd : (v.takeWhile Char.isDigit).isEmpty with
  | true => simp [hd] at h
  | false =>
    simp only [hd, Bool.false_eq_true, if_false] at h
    cases he : unitExponent ((v.drop (v.takeWhile Char.isDigit).length).dropWhile
        isRustWhitespace) with
    | error e =>
      rw [he] at h
      exact Except.noConfusion h
    | ok e =>
      rw [he] at h
      have hm : satMul (parseU64Saturating (v.takeWhile Char.isDigit))
          (satPow1024 e) = m := Except.ok.inj h
      rw [← hm]
      unfold satMul
      by_cases hmul : parseU64Saturating (v.takeWhile Char.isDigit) *
          satPow1024 e ≤ U64MAX
      · rw [if_pos hmul]
        exact hmul
      · rw [if_neg hmul]

/-- Claim C10: every input of one or more ASCII digits followed by an
optionally space-separated valid unit (empty, `B`, or a binary prefix
`K`/`M`/`G`/`T`/`P`/`E`/`Z`/`Y` optionally followed by `B`, `i`, or `iB`)
parses successfully; the value saturates at `u64::MAX` — both for an
oversized digit string (`2^64` parses to `2^64 - 1`) and when multiplying
by the `1024^k` unit factor (`2Y`) — and parsing fails exactly for inputs
that do not start with a digit or whose unit is not recognized. -/
theorem parse_human_byte_size_c10 (ds ws u : List Char)
    (h1 : ds ≠ []) (h2 : ds.all Char.isDigit = true)
    (h3 : ws.all (fun c => decide (c = ' ')) = true)
    (h4 : validUnit u = true) :
    isOkE (parse_human_byte_size (ds ++ (ws ++ u))) = true ∧
    (∀ w : List Char, isOkE (parse_human_byte_size w) = true ↔
      ((w.takeWhile Char.isDigit).isEmpty = false ∧
        validUnit ((w.drop (w.takeWhile Char.isDigit).length).dropWhile
          isRustWhitespace) = true)) ∧
    parse_human_byte_size (("18446744073709551616" : String).data) =
      .ok U64MAX ∧
    parse_human_byte_size (("2Y" : String).data) = .ok U64MAX ∧
    (∀ (w : List Char) (m : Nat),
      parse_human_byte_size w = .ok m → m ≤ U64MAX) := by
  have h2m : ∀ c ∈ ds, Char.isDigit c = true := by
    simpa [List.all_eq_true] using h2
  have h3m : ∀ c ∈ ws, c = ' ' := by
    simpa [List.all_eq_true] using h3
  have hu : ∀ c, u.head? = some c →
      Char.isDigit c = false ∧ isRustWhitespace c = false :=
    validUnit_head u h4
  have hws : ∀ c, (ws ++ u).head? = some c → Char.isDigit c = false := by
    intro c hc
    cases ws with
    | nil => exact (hu c (by simpa using hc)).1
    | cons w wt =>
      have hcw : w = c := by simpa using hc
      have hw : w = ' ' := h3m w (List.mem_cons_self w wt)
      rw [← hcw, hw]
      rfl
  have htake : ((ds ++ (ws ++ u)).takeWhile Char.isDigit) = ds :=
    takeWhile_all_append Char.isDigit (ws ++ u) hws ds h2m
  have hdrop2 : ((ds ++ (ws ++ u)).drop ds.length) = ws ++ u :=
    List.drop_left ds (ws ++ u)
  have hdw : ((ws ++ u).dropWhile isRustWhitespace) = u :=
    dropWhile_ws_append u (fun c hc => (hu c hc).2) ws h3m
  refine ⟨?_, parse_ok_iff, rfl, rfl, parse_le_max⟩
  rw [parse_ok_iff]
  constructor
  · rw [htake]
    simpa [List.isEmpty_iff] using h1
  · rw [htake, hdrop2, hdw]
    exact h4

/-- Witness for C10: `42 KiB` parses successfully. -/
theorem parse_human_byte_size_c10_witness :
    isOkE (parse_human_byte_size ((("42" : String).data) ++
      (((" " : String).data) ++ (("KiB" : String).data)))) = true :=
  (parse_human_byte_size_c10 (("42" : String).data) ((" " : String).data)
    (("KiB" : String).data) (by decide) (by decide) (by decide)
    (by decide)).1
